import Mathlib

set_option maxRecDepth 10000

/-!
Verification of the findimg multiscale template-matching core (main.go).

Shallow embedding conventions:
* An `image.RGBA` raster produced by `image.NewRGBA(image.Rect(0,0,w,h))`
  (the only kind of raster flowing through the core: `resizeImage` output)
  is modelled as a `Raster`: a width, a height and the flat `Pix` byte
  array modelled as a total function `Int → Nat`.  Bytes are `uint8`, so
  theorems carry `< 256` bounds where pixel values matter.
* Go `uint32` accumulation wraps; sums are therefore reduced `% 2 ^ 32`
  exactly where the source accumulates in `uint32`.
* Go `float64` score arithmetic is modelled exactly over `ℚ`; `int(f)`
  conversion (truncation toward zero) is `goInt`.
* The per-scale matcher's goroutines are deterministic row-slice scans;
  the nondeterministic channel fan-in followed by `sort.Slice` is
  modelled by concatenating the worker-local lists in worker order and
  applying `List.insertionSort` with the source's comparator (one
  admissible linearization of the unordered collection + unstable sort).
* `runtime.NumCPU() * 2` is an environment value, taken as the
  `numWorkers` parameter (always ≥ 2 in Go).
-/

/-- A decoded RGBA pixel buffer with origin `(0,0)`: width, height and the
flat `Pix` byte array (stride `4*w`, 4 bytes per pixel, as `image.NewRGBA`). -/
structure Raster where
  w : Nat
  h : Nat
  pix : Int → Nat

/-- `image.Rectangle`: integer min (inclusive) and max (exclusive) corners. -/
structure Rect where
  minX : Int
  minY : Int
  maxX : Int
  maxY : Int
deriving DecidableEq, Repr

/-- `image.Rect(x0,y0,x1,y1)`: builds a rectangle, swapping coordinates so
that min ≤ max, exactly as the Go standard library does. -/
def mkRect (x0 y0 x1 y1 : Int) : Rect :=
  ⟨if x0 > x1 then x1 else x0, if y0 > y1 then y1 else y0,
   if x0 > x1 then x0 else x1, if y0 > y1 then y0 else y1⟩

/-- `Rectangle.Dx()`. -/
def Rect.dx (r : Rect) : Int := r.maxX - r.minX

/-- `Rectangle.Dy()`. -/
def Rect.dy (r : Rect) : Int := r.maxY - r.minY

/-- A match candidate: bounds plus the `Match` float64 field (named `score`
here; it holds the raw dissimilarity sum until normalization). -/
structure Match where
  bounds : Rect
  score : ℚ
deriving DecidableEq, Repr

/-- Go `int(f)` on a float64: truncation toward zero. -/
def goInt (q : ℚ) : Int := if q < 0 then ⌈q⌉ else ⌊q⌋

/-- `bitwiseAbsDiff(a, b uint8) uint32` (main.go:768):
`v := int32(a) - int32(b); m := v >> 31; return uint32((v + m) ^ m)`.
The arithmetic shift `v >> 31` of an `int32` is `-1` for negative `v` and
`0` otherwise; the `int32` xor and the final `uint32` cast act on the
32-bit two's-complement patterns, modelled by `% 2^32` into `Nat.xor`. -/
def bitwiseAbsDiff (a b : Nat) : Nat :=
  let v : Int := (a : Int) - (b : Int)
  let m : Int := if v < 0 then -1 else 0
  (((v + m) % (2 ^ 32 : Int)).toNat) ^^^ ((m % (2 ^ 32 : Int)).toNat)

/-- `rgbAbsSumSliceBitwise(a, b []uint8) uint32` (main.go:774): sums the
per-channel absolute differences of the first three bytes of each slice
(slices are modelled as index functions); `uint32` addition wraps. -/
def rgbAbsSumSliceBitwise (a b : Nat → Nat) : Nat :=
  (bitwiseAbsDiff (a 0) (b 0) + bitwiseAbsDiff (a 1) (b 1) +
    bitwiseAbsDiff (a 2) (b 2)) % 2 ^ 32

/-- `(*image.RGBA).PixOffset(x, y)` for a raster with origin `(0,0)` and
stride `4*w`. -/
def Raster.PixOffset (img : Raster) (x y : Int) : Int :=
  y * (4 * (img.w : Int)) + x * 4

/-- The needle-pixel traversal order of the two nested loops
`for ny … { for nx … }` flattened row-major. -/
def pixOffsets (w h : Nat) : List (Nat × Nat) :=
  (List.range h).flatMap (fun ny => (List.range w).map (fun nx => (nx, ny)))

/-- `sumOfAbsDiffRGBA(img, x, y, subimg)` (main.go:494): the raw patch
dissimilarity; `sum` is a `uint32`, so each accumulation wraps `% 2^32`. -/
def sumOfAbsDiffRGBA (img : Raster) (x y : Int) (sub : Raster) : Nat :=
  (pixOffsets sub.w sub.h).foldl
    (fun s p =>
      let i := img.PixOffset (x + p.1) (y + p.2)
      let j := sub.PixOffset (p.1 : Int) (p.2 : Int)
      (s + rgbAbsSumSliceBitwise (fun t => img.pix (i + t))
        (fun t => sub.pix (j + t))) % 2 ^ 32)
    0


/-- The `maxDiffIndex` scan of `convolutionTopKParallel` (main.go:667-672):
index of the largest element of `minSums`, lowest index on ties
(`maxDiffIndex := 0; for i := 1; …; if minSums[i] > minSums[maxDiffIndex]`). -/
def maxDiffIndex (minSums : List Nat) : Nat :=
  ((List.range minSums.length).drop 1).foldl
    (fun mi i => if minSums.getD i 0 > minSums.getD mi 0 then i else mi) 0

/-- One iteration of the bounded worst-replacement candidate update
(main.go:663-677): append while fewer than `k` entries are held, otherwise
replace the worst entry only if the new sum is strictly smaller. -/
def topkStep (k : Nat) (st : List Match × List Nat) (bounds : Rect)
    (sum : Nat) : List Match × List Nat :=
  if st.1.length < k then
    (st.1 ++ [⟨bounds, (sum : ℚ)⟩], st.2 ++ [sum])
  else
    let mi := maxDiffIndex st.2
    if sum < st.2.getD mi 0 then
      (st.1.set mi ⟨bounds, (sum : ℚ)⟩, st.2.set mi sum)
    else st

/-- A full scan pass: fold `topkStep` over the (bounds, raw sum) stream in
scan order, starting from the empty candidate list. -/
def scanTopK (k : Nat) (l : List (Rect × Nat)) : List Match × List Nat :=
  l.foldl (fun st p => topkStep k st p.1 p.2) ([], [])

/-- The integers `a, a+1, …, b-1` (empty when `b ≤ a`): a Go
`for v := a; v < b; v++` loop range. -/
def rangeZ (a b : Int) : List Int :=
  (List.range (b - a).toNat).map (fun i : Nat => a + (i : Int))

/-- The (bounds, raw sum) stream scanned by one worker goroutine
(main.go:656-679): offsets row-major over `[xa, xb) × [ya, yb)`, with
`bounds = image.Rect(x, y, x+subw, y+subh)` and the `sumOfAbsDiffRGBA`
raw dissimilarity at each offset. -/
def workerOffsets (img sub : Raster) (xa xb ya yb : Int) : List (Rect × Nat) :=
  (rangeZ ya yb).flatMap (fun y => (rangeZ xa xb).map (fun x =>
    (mkRect x y (x + sub.w) (y + sub.h), sumOfAbsDiffRGBA img x y sub)))

/-- The zero value `Match{}` exposed by the `matches[:k]` re-slice into the
zeroed backing array. -/
def zeroMatch : Match := ⟨⟨0, 0, 0, 0⟩, 0⟩

/-- `matches = matches[:k]` (main.go:713): the collected slice has backing
capacity `k*numWorkers ≥ k`, so when fewer than `k` matches were collected
the re-slice exposes zero-valued `Match{}` entries rather than failing. -/
def sliceToK (l : List Match) (k : Nat) : List Match :=
  if k ≤ l.length then l.take k else l ++ List.replicate (k - l.length) zeroMatch

/-- The pre-normalization stages of `convolutionTopKParallel`
(main.go:613-713): worker `i` scans rows `[minY + i*sliceHeight, …)`
(the last worker up to `inner.Dy()`), the worker-local top-k lists are
fanned in (modelled in worker order), sorted ascending by raw sum
(`sort.Slice` with `matches[i].Match < matches[j].Match`), and re-sliced
to length `k`; each held `Match` still carries its raw sum. -/
def convTopKRaw (img sub : Raster) (k0 numWorkers : Nat) : List Match :=
  let inner := mkRect 0 0 ((img.w : Int) - sub.w) ((img.h : Int) - sub.h)
  let k := if k0 < 1 then 1 else k0
  let sliceHeight : Int := inner.dy / numWorkers
  let collected := (List.range numWorkers).flatMap (fun i =>
    let ya := inner.minY + i * sliceHeight
    let yb := if i = numWorkers - 1 then inner.dy else ya + sliceHeight
    (scanTopK k (workerOffsets img sub inner.minX inner.maxX ya yb)).1)
  let sorted := List.insertionSort (fun a b => a.score ≤ b.score) collected
  sliceToK sorted k

/-- The normalization loop of `convolutionTopKParallel` (main.go:715-719):
`norm := 1 / float64(subimgr.Max.X*subimgr.Max.Y*0xFF*3)` and
`matches[i].Match = 1 - matches[i].Match*norm`. -/
def normalizeMatch (sub : Raster) (m : Match) : Match :=
  ⟨m.bounds, 1 - m.score * (1 / ((sub.w : ℚ) * (sub.h : ℚ) * 255 * 3))⟩

/-- `convolutionTopKParallel(img, subimg, k)` (main.go:613-722). -/
def convolutionTopKParallel (img sub : Raster) (k0 numWorkers : Nat) : List Match :=
  (convTopKRaw img sub k0 numWorkers).map (normalizeMatch sub)


/-- `Match.Scale(scale)` (main.go:52-64): both rectangle corners are
multiplied by `scale` as float64 and truncated back to int; the score is
untouched. -/
def Match.Scale (m : Match) (scale : ℚ) : Match :=
  ⟨⟨goInt ((m.bounds.minX : ℚ) * scale), goInt ((m.bounds.minY : ℚ) * scale),
    goInt ((m.bounds.maxX : ℚ) * scale), goInt ((m.bounds.maxY : ℚ) * scale)⟩,
   m.score⟩

/-- `Matches.Scale(scale)` (main.go:45-50): scales every entry in place and
returns the (mutated) slice. -/
def Matches.Scale (l : List Match) (scale : ℚ) : List Match :=
  l.map (fun m => m.Scale scale)

/-- The `Opts` fields consumed by the core search (main.go:91-102); the
HTML/visualization flags only drive output rendering and are omitted. -/
structure Opts where
  imgMinWidth : Nat
  imgMaxWidth : Nat
  subMinArea : Nat
  subMaxDiv : Nat
  k : Nat
deriving DecidableEq, Repr

/-- The option defaulting prologue of `findImage` (main.go:192-214): each
zero field is replaced by its `DEFAULT_OPTS` value, then `imgMaxWidth` is
clamped down to the haystack's native width. -/
def defaultOpts (imgsrcW : Nat) (o : Opts) : Opts :=
  let o1 : Opts :=
    ⟨if o.imgMinWidth = 0 then 8 else o.imgMinWidth,
     if o.imgMaxWidth = 0 then 256 else o.imgMaxWidth,
     if o.subMinArea = 0 then 25 else o.subMinArea,
     if o.subMaxDiv = 0 then 64 else o.subMaxDiv,
     if o.k = 0 then 6 else o.k⟩
  if imgsrcW < o1.imgMaxWidth then
    ⟨o1.imgMinWidth, imgsrcW, o1.subMinArea, o1.subMaxDiv, o1.k⟩
  else o1

/-- `resizeImage(img, width, height)` (main.go:828-850).  A zero dimension
is derived from the other preserving aspect ratio; both are clamped to a
minimum of 1.  The `draw.CatmullRom.Scale` resampling filter is external
library code (golang.org/x/image/draw), taken as the `resample` parameter:
given the source raster and the resolved target width and height it
produces the target's flat pixel array. -/
def resizeImage (resample : Raster → Nat → Nat → Int → Nat) (img : Raster)
    (width height : Nat) : Raster :=
  let p : Int × Int :=
    if width = 0 then (goInt ((height : ℚ) * (img.w : ℚ) / (img.h : ℚ)), (height : Int))
    else if height = 0 then ((width : Int), goInt ((width : ℚ) * (img.h : ℚ) / (img.w : ℚ)))
    else ((width : Int), (height : Int))
  let w2 : Int := if p.1 < 1 then 1 else p.1
  let h2 : Int := if p.2 < 1 then 1 else p.2
  ⟨w2.toNat, h2.toNat, resample img w2.toNat h2.toNat⟩

/-- The needle dimensions computed at one inner pyramid step
(main.go:285-287): `sscale := 1/float64(div)`,
`sw := int(float64(subsrc.Dx()) * sscale * imgScale)` and analogously for
the height. -/
def innerDims (subsrc : Raster) (imgScale : ℚ) (div : Nat) : Int × Int :=
  (goInt ((subsrc.w : ℚ) * (1 / (div : ℚ)) * imgScale),
   goInt ((subsrc.h : ℚ) * (1 / (div : ℚ)) * imgScale))

/-- The body of the inner (needle-division) loop of `findImage`
(main.go:284-332), written with an explicit iteration budget `fuel` so the
recursion is structural.  One step at divisor `div` with the running
`lastTopMatch` score and the accumulated `matches` slice: the loop exits
when `opts.subMaxDiv < div` (the `for` condition `div <= opts.SubMaxDiv`
fails); a degenerate needle size breaks the loop; a degraded best score
(strictly below `lastTopMatch`) sets `done`; otherwise the (already
coordinate-corrected, main.go:322 mutates in place) current matches become
the running result and `div` doubles.  `innerLoopGo_fuel_irrel` below
shows the result does not depend on `fuel` once it covers the remaining
iterations, so the fuel is bookkeeping for termination only. -/
def innerLoopGo (resample : Raster → Nat → Nat → Int → Nat) (img subsrc : Raster)
    (imgWidth imgHeight : Nat) (imgScale : ℚ) (opts : Opts) (numWorkers : Nat) :
    Nat → Nat → ℚ → List Match → List Match × Bool
  | 0, _, _, acc => (acc, false)
  | fuel + 1, div, lastTop, acc =>
    if opts.subMaxDiv < div then (acc, false)
    else
      let sw := (innerDims subsrc imgScale div).1
      let sh := (innerDims subsrc imgScale div).2
      if sw * sh < (opts.subMinArea : Int) ∨ (imgWidth : Int) ≤ sw ∨
          (imgHeight : Int) ≤ sh then (acc, false)
      else
        match convolutionTopKParallel img
            (resizeImage resample subsrc sw.toNat sh.toNat) opts.k numWorkers with
        | [] => (acc, false)
        | divTop :: rest =>
          if divTop.score < lastTop then (acc, true)
          else
            innerLoopGo resample img subsrc imgWidth imgHeight imgScale opts
              numWorkers fuel (div * 2) divTop.score
              (Matches.Scale (divTop :: rest) (1 / imgScale))

/-- The inner loop of `findImage` resumed at divisor `div`: since `div` at
least doubles every iteration while staying at most `opts.subMaxDiv`, the
remaining iteration count is bounded by `opts.subMaxDiv + 1 - div`, which
is passed as the fuel.  Go's `div` starts at 1 and doubles, so `div = 0`
never occurs in a run of the program. -/
def innerLoop (resample : Raster → Nat → Nat → Int → Nat) (img subsrc : Raster)
    (imgWidth imgHeight : Nat) (imgScale : ℚ) (opts : Opts) (numWorkers : Nat)
    (div : Nat) (lastTop : ℚ) (acc : List Match) : List Match × Bool :=
  innerLoopGo resample img subsrc imgWidth imgHeight imgScale opts numWorkers
    (opts.subMaxDiv + 1 - div) div lastTop acc

/-- The outer (haystack-width) loop of `findImage` (main.go:267-341),
resumed at width `imgWidth` with the running `matches`.  Each step resizes
the haystack to `imgWidth` (height derived), computes
`imgScale = imgWidth / originalWidth`, runs the inner loop from divisor 1
with `lastTopMatch = 0`, and stops early when the inner loop set `done`.
Go's width starts at `imgMinWidth ≥ 1` (after defaulting) and doubles, so
`imgWidth = 0` is unreachable; the guard only serves termination. -/
def outerLoop (resample : Raster → Nat → Nat → Int → Nat)
    (imgsrc subsrc : Raster) (opts : Opts) (numWorkers : Nat)
    (imgWidth : Nat) (acc : List Match) : List Match :=
  if hstop : imgWidth = 0 ∨ opts.imgMaxWidth < imgWidth then acc
  else
    let img := resizeImage resample imgsrc imgWidth 0
    let res := innerLoop resample img subsrc imgWidth img.h
      ((imgWidth : ℚ) / (imgsrc.w : ℚ)) opts numWorkers 1 0 acc
    if res.2 then res.1
    else outerLoop resample imgsrc subsrc opts numWorkers (imgWidth * 2) res.1
termination_by opts.imgMaxWidth + 1 - imgWidth
decreasing_by
  simp only [not_or] at hstop
  omega

/-- `findImage(imgsrc, subsrc, opts)` (main.go:190-348), with the HTML and
verbose output stripped (they do not affect the returned matches). -/
def findImage (resample : Raster → Nat → Nat → Int → Nat)
    (imgsrc subsrc : Raster) (opts0 : Opts) (numWorkers : Nat) : List Match :=
  let opts := defaultOpts imgsrc.w opts0
  outerLoop resample imgsrc subsrc opts numWorkers opts.imgMinWidth []

/-- The five values printed per match by the text output (main.go:185):
`fmt.Printf("%6f %4d %4d %4d %4d\n", match.Match, match.Bounds.Min.X,
match.Bounds.Min.Y, match.Bounds.Max.X, match.Bounds.Max.Y)`. -/
def textLineFields (m : Match) : ℚ × Int × Int × Int × Int :=
  (m.score, m.bounds.minX, m.bounds.minY, m.bounds.maxX, m.bounds.maxY)

/-- The `bounds{x,y,w,h}` object and the `match` score produced by
`Match.MarshalJSON` (main.go:525-544): `X: Min.X, Y: Min.Y, W: Dx(),
H: Dy()`. -/
def jsonFields (m : Match) : (Int × Int × Int × Int) × ℚ :=
  ((m.bounds.minX, m.bounds.minY, m.bounds.dx, m.bounds.dy), m.score)

/-- The exact absolute difference of one colour channel (`c` = 0/1/2 for
R/G/B; byte 3, alpha, is excluded) between the haystack pixel at
`(x+nx, y+ny)` and the needle pixel at `(nx, ny)`. -/
def channelAbsDiff (img : Raster) (x y : Int) (sub : Raster)
    (p : Nat × Nat) (c : Int) : Nat :=
  ((img.pix (img.PixOffset (x + p.1) (y + p.2) + c) : Int) -
    (sub.pix (sub.PixOffset (p.1 : Int) (p.2 : Int) + c) : Int)).natAbs

/-- Written to the spec's words ("Sums, over every needle pixel (nx,ny),
the absolute per-channel (R,G,B; alpha excluded) difference between
haystack[hx+nx, hy+ny] and needle[nx,ny]"), as an exact (unwrapped)
integer: the comparison point for `sumOfAbsDiffRGBA`. -/
def absDiffSumSpec (img : Raster) (x y : Int) (sub : Raster) : Nat :=
  ((pixOffsets sub.w sub.h).map (fun p =>
    channelAbsDiff img x y sub p 0 + channelAbsDiff img x y sub p 1 +
      channelAbsDiff img x y sub p 2)).sum

theorem xorMask255 : ∀ d : Nat, d < 256 → ((4294967295 - d) ^^^ 4294967295) = d := by
  decide

theorem bitwiseAbsDiff_eq (a b : Nat) (ha : a < 256) (hb : b < 256) :
    bitwiseAbsDiff a b = ((a : Int) - b).natAbs := by
  simp only [bitwiseAbsDiff]
  by_cases hv : ((a : Int) - b) < 0
  · rw [if_pos hv]
    have hm : (((-1 : Int)) % (2 ^ 32 : Int)).toNat = 4294967295 := by decide
    have h1 : ((a : Int) - b + -1) % (2 ^ 32 : Int) = (a : Int) - b + -1 + 2 ^ 32 := by
      have h2 : ((a : Int) - b + -1 + 2 ^ 32) % (2 ^ 32 : Int) =
          (a : Int) - b + -1 + 2 ^ 32 := Int.emod_eq_of_lt (by omega) (by omega)
      calc ((a : Int) - b + -1) % (2 ^ 32 : Int)
          = ((a : Int) - b + -1 + 2 ^ 32 * 1) % (2 ^ 32 : Int) := by
            rw [Int.add_mul_emod_self_left]
        _ = (a : Int) - b + -1 + 2 ^ 32 := by rw [mul_one, h2]
    rw [hm, h1]
    have hd : ((a : Int) - b + -1 + 2 ^ 32).toNat = 4294967295 - (b - a) := by omega
    rw [hd, xorMask255 (b - a) (by omega)]
    omega
  · rw [if_neg hv]
    have h1 : ((a : Int) - b + 0) % (2 ^ 32 : Int) = (a : Int) - b + 0 :=
      Int.emod_eq_of_lt (by omega) (by omega)
    have hm : (((0 : Int)) % (2 ^ 32 : Int)).toNat = 0 := by decide
    rw [h1, hm, Nat.xor_zero]
    omega

theorem rgbAbsSumSliceBitwise_eq (a b : Nat → Nat)
    (ha0 : a 0 < 256) (ha1 : a 1 < 256) (ha2 : a 2 < 256)
    (hb0 : b 0 < 256) (hb1 : b 1 < 256) (hb2 : b 2 < 256) :
    rgbAbsSumSliceBitwise a b =
      ((a 0 : Int) - b 0).natAbs + ((a 1 : Int) - b 1).natAbs +
        ((a 2 : Int) - b 2).natAbs := by
  simp only [rgbAbsSumSliceBitwise]
  rw [bitwiseAbsDiff_eq _ _ ha0 hb0, bitwiseAbsDiff_eq _ _ ha1 hb1,
    bitwiseAbsDiff_eq _ _ ha2 hb2]
  have : ((a 0 : Int) - b 0).natAbs + ((a 1 : Int) - b 1).natAbs +
      ((a 2 : Int) - b 2).natAbs < 2 ^ 32 := by omega
  exact Nat.mod_eq_of_lt this

/-- C10: for all 8-bit values, `bitwiseAbsDiff` equals the integer absolute
difference, and `rgbAbsSumSliceBitwise` of two 3-byte pixel slices equals
the exact sum of the three per-channel absolute differences and is at most
765. -/
theorem bitwiseAbsDiff_rgb_correct :
    (∀ a b : Nat, a < 256 → b < 256 →
      bitwiseAbsDiff a b = ((a : Int) - b).natAbs) ∧
    (∀ a b : Nat → Nat, a 0 < 256 → a 1 < 256 → a 2 < 256 →
      b 0 < 256 → b 1 < 256 → b 2 < 256 →
      rgbAbsSumSliceBitwise a b =
        ((a 0 : Int) - b 0).natAbs + ((a 1 : Int) - b 1).natAbs +
          ((a 2 : Int) - b 2).natAbs ∧
      rgbAbsSumSliceBitwise a b ≤ 765) := by
  refine ⟨bitwiseAbsDiff_eq, fun a b ha0 ha1 ha2 hb0 hb1 hb2 => ?_⟩
  have h := rgbAbsSumSliceBitwise_eq a b ha0 ha1 ha2 hb0 hb1 hb2
  exact ⟨h, by rw [h]; omega⟩

/-- Witness for C10 at concrete bytes. -/
theorem bitwiseAbsDiff_rgb_correct_witness :
    bitwiseAbsDiff 200 55 = ((200 : Int) - 55).natAbs ∧
    (rgbAbsSumSliceBitwise (fun _ => 255) (fun _ => 0) =
      ((255 : Int) - 0).natAbs + ((255 : Int) - 0).natAbs +
        ((255 : Int) - 0).natAbs ∧
      rgbAbsSumSliceBitwise (fun _ => 255) (fun _ => 0) ≤ 765) :=
  ⟨bitwiseAbsDiff_rgb_correct.1 200 55 (by norm_num) (by norm_num),
   bitwiseAbsDiff_rgb_correct.2 (fun _ => 255) (fun _ => 0) (by norm_num)
     (by norm_num) (by norm_num) (by norm_num) (by norm_num) (by norm_num)⟩

theorem foldl_add_mod (f : Nat × Nat → Nat) :
    ∀ (l : List (Nat × Nat)) (a : Nat), a < 2 ^ 32 →
      l.foldl (fun s p => (s + f p) % 2 ^ 32) a = (a + (l.map f).sum) % 2 ^ 32 := by
  intro l
  induction l with
  | nil =>
    intro a ha
    simp only [List.foldl_nil, List.map_nil, List.sum_nil, Nat.add_zero]
    omega
  | cons p t ih =>
    intro a ha
    have h1 : (a + f p) % 2 ^ 32 < 2 ^ 32 := Nat.mod_lt _ (by norm_num)
    simp only [List.foldl_cons, List.map_cons, List.sum_cons]
    rw [ih _ h1, Nat.mod_add_mod]
    omega

theorem sumOfAbsDiffRGBA_mod (img sub : Raster) (x y : Int) :
    sumOfAbsDiffRGBA img x y sub =
      ((pixOffsets sub.w sub.h).map (fun p =>
        rgbAbsSumSliceBitwise
          (fun t => img.pix (img.PixOffset (x + p.1) (y + p.2) + t))
          (fun t => sub.pix (sub.PixOffset (p.1 : Int) (p.2 : Int) + t)))).sum
        % 2 ^ 32 := by
  have h := foldl_add_mod (fun p =>
    rgbAbsSumSliceBitwise
      (fun t => img.pix (img.PixOffset (x + p.1) (y + p.2) + t))
      (fun t => sub.pix (sub.PixOffset (p.1 : Int) (p.2 : Int) + t)))
    (pixOffsets sub.w sub.h) 0 (by norm_num)
  simpa [sumOfAbsDiffRGBA] using h

theorem sum_map_const_of {α : Type} (l : List α) (f : α → Nat) (c : Nat)
    (hc : ∀ p ∈ l, f p = c) : (l.map f).sum = l.length * c := by
  induction l with
  | nil => simp
  | cons p t ih =>
    simp only [List.map_cons, List.sum_cons, List.length_cons]
    rw [hc p (by simp), ih (fun q hq => hc q (by simp [hq]))]
    ring

theorem pixOffsets_length (w h : Nat) : (pixOffsets w h).length = h * w := by
  simp only [pixOffsets, List.length_flatMap]
  rw [sum_map_const_of (List.range h) _ w (fun p _ => by simp)]
  simp

theorem perPixel_eq (img sub : Raster) (x y : Int)
    (himg : ∀ i, img.pix i < 256) (hsub : ∀ i, sub.pix i < 256)
    (p : Nat × Nat) :
    rgbAbsSumSliceBitwise
      (fun t => img.pix (img.PixOffset (x + p.1) (y + p.2) + t))
      (fun t => sub.pix (sub.PixOffset (p.1 : Int) (p.2 : Int) + t)) =
    channelAbsDiff img x y sub p 0 + channelAbsDiff img x y sub p 1 +
      channelAbsDiff img x y sub p 2 := by
  rw [rgbAbsSumSliceBitwise_eq _ _ (himg _) (himg _) (himg _) (hsub _) (hsub _)
    (hsub _)]
  simp only [channelAbsDiff]
  norm_num

/-- C5 (amended): when the per-patch total cannot overflow the `uint32`
accumulator (`subW*subH*765 < 2^32`), `sumOfAbsDiffRGBA` at an in-bounds
offset equals the exact sum, over every needle pixel, of the absolute
R, G and B channel differences (alpha excluded). -/
theorem sumOfAbsDiffRGBA_exact (img sub : Raster) (x y : Int)
    (himg : ∀ i, img.pix i < 256) (hsub : ∀ i, sub.pix i < 256)
    (hx : 0 ≤ x) (hy : 0 ≤ y)
    (hfitw : x + sub.w ≤ img.w) (hfith : y + sub.h ≤ img.h)
    (hsize : sub.w * sub.h * 765 < 2 ^ 32) :
    sumOfAbsDiffRGBA img x y sub = absDiffSumSpec img x y sub := by
  rw [sumOfAbsDiffRGBA_mod]
  have hmap :
      (pixOffsets sub.w sub.h).map (fun p =>
        rgbAbsSumSliceBitwise
          (fun t => img.pix (img.PixOffset (x + p.1) (y + p.2) + t))
          (fun t => sub.pix (sub.PixOffset (p.1 : Int) (p.2 : Int) + t))) =
      (pixOffsets sub.w sub.h).map (fun p =>
        channelAbsDiff img x y sub p 0 + channelAbsDiff img x y sub p 1 +
          channelAbsDiff img x y sub p 2) :=
    List.map_congr_left (fun p _ => perPixel_eq img sub x y himg hsub p)
  rw [hmap]
  have hbound : absDiffSumSpec img x y sub ≤ sub.h * sub.w * 765 := by
    have h1 := List.sum_le_card_nsmul
      ((pixOffsets sub.w sub.h).map (fun p =>
        channelAbsDiff img x y sub p 0 + channelAbsDiff img x y sub p 1 +
          channelAbsDiff img x y sub p 2)) 765 ?_
    · simpa [absDiffSumSpec, pixOffsets_length, mul_assoc] using h1
    · intro v hv
      obtain ⟨p, _, rfl⟩ := List.mem_map.mp hv
      have c0 := himg (img.PixOffset (x + p.1) (y + p.2) + 0)
      have c1 := himg (img.PixOffset (x + p.1) (y + p.2) + 1)
      have c2 := himg (img.PixOffset (x + p.1) (y + p.2) + 2)
      have d0 := hsub (sub.PixOffset (p.1 : Int) (p.2 : Int) + 0)
      have d1 := hsub (sub.PixOffset (p.1 : Int) (p.2 : Int) + 1)
      have d2 := hsub (sub.PixOffset (p.1 : Int) (p.2 : Int) + 2)
      simp only [channelAbsDiff]
      omega
  have hlt : absDiffSumSpec img x y sub < 2 ^ 32 := by
    calc absDiffSumSpec img x y sub ≤ sub.h * sub.w * 765 := hbound
      _ = sub.w * sub.h * 765 := by ring
      _ < 2 ^ 32 := hsize
  calc ((pixOffsets sub.w sub.h).map (fun p =>
        channelAbsDiff img x y sub p 0 + channelAbsDiff img x y sub p 1 +
          channelAbsDiff img x y sub p 2)).sum % 2 ^ 32
      = absDiffSumSpec img x y sub % 2 ^ 32 := by rw [absDiffSumSpec]
    _ = absDiffSumSpec img x y sub := Nat.mod_eq_of_lt hlt

/-- Witness for C5 at a concrete 2×2/2×2 raster pair. -/
theorem sumOfAbsDiffRGBA_exact_witness :
    sumOfAbsDiffRGBA ⟨2, 2, fun _ => 9⟩ 0 0 ⟨2, 2, fun _ => 4⟩ =
      absDiffSumSpec ⟨2, 2, fun _ => 9⟩ 0 0 ⟨2, 2, fun _ => 4⟩ :=
  sumOfAbsDiffRGBA_exact _ _ 0 0 (fun _ => by norm_num) (fun _ => by norm_num)
    le_rfl le_rfl (by norm_num) (by norm_num) (by norm_num)

/-- A 2400×2400 all-white haystack. -/
def bigHay : Raster := ⟨2400, 2400, fun _ => 255⟩

/-- A 2400×2400 all-black needle: the exact dissimilarity at offset (0,0)
is `2400*2400*765 = 4406400000 ≥ 2^32`, overflowing the `uint32` sum. -/
def bigSub : Raster := ⟨2400, 2400, fun _ => 0⟩

/-- C5 counterexample: on a 2400×2400 pair the `uint32` accumulator wraps,
so `sumOfAbsDiffRGBA` is not the exact integer sum. -/
theorem sumOfAbsDiffRGBA_overflow_counterexample :
    sumOfAbsDiffRGBA bigHay 0 0 bigSub ≠ absDiffSumSpec bigHay 0 0 bigSub := by
  have hconst : ∀ p ∈ pixOffsets bigSub.w bigSub.h,
      rgbAbsSumSliceBitwise
        (fun t => bigHay.pix (bigHay.PixOffset (0 + p.1) (0 + p.2) + t))
        (fun t => bigSub.pix (bigSub.PixOffset (p.1 : Int) (p.2 : Int) + t)) =
      765 := fun p _ =>
    (by decide : rgbAbsSumSliceBitwise (fun _ => 255) (fun _ => 0) = 765)
  have hspec : ∀ p ∈ pixOffsets bigSub.w bigSub.h,
      channelAbsDiff bigHay 0 0 bigSub p 0 +
        channelAbsDiff bigHay 0 0 bigSub p 1 +
        channelAbsDiff bigHay 0 0 bigSub p 2 = 765 := fun p _ =>
    (by decide : ((255 : Int) - (0 : Int)).natAbs + ((255 : Int) - (0 : Int)).natAbs +
      ((255 : Int) - (0 : Int)).natAbs = 765)
  have h1 : sumOfAbsDiffRGBA bigHay 0 0 bigSub = (2400 * 2400 * 765) % 2 ^ 32 := by
    rw [sumOfAbsDiffRGBA_mod, sum_map_const_of _ _ 765 hconst, pixOffsets_length]
    rfl
  have h2 : absDiffSumSpec bigHay 0 0 bigSub = 2400 * 2400 * 765 := by
    rw [absDiffSumSpec, sum_map_const_of _ _ 765 hspec, pixOffsets_length]
    rfl
  rw [h1, h2]
  norm_num

theorem goInt_of_nonneg (q : ℚ) (h : 0 ≤ q) : goInt q = ⌊q⌋ := by
  simp [goInt, not_lt.mpr h]

theorem goInt_updown (x : Int) (s : ℚ) (hx : 0 ≤ x) (hs : 0 < s) (hs1 : s ≤ 1) :
    x - 1 ≤ goInt ((goInt ((x : ℚ) * (1 / s)) : ℚ) * s) ∧
      goInt ((goInt ((x : ℚ) * (1 / s)) : ℚ) * s) ≤ x := by
  have hs0 : s ≠ 0 := ne_of_gt hs
  have hq : (0 : ℚ) ≤ (x : ℚ) * (1 / s) := by positivity
  rw [goInt_of_nonneg _ hq]
  set x1 : Int := ⌊(x : ℚ) * (1 / s)⌋ with hx1
  have hx1nn : 0 ≤ x1 := Int.floor_nonneg.mpr hq
  have ht : (0 : ℚ) ≤ (x1 : ℚ) * s := by positivity
  rw [goInt_of_nonneg _ ht]
  constructor
  · have hlt : ((x : ℚ) * (1 / s)) < x1 + 1 := Int.lt_floor_add_one _
    have h2 : (x : ℚ) < (x1 + 1) * s := by
      have h3 : ((x : ℚ) * (1 / s)) * s < ((x1 : ℚ) + 1) * s :=
        mul_lt_mul_of_pos_right (by exact_mod_cast hlt) hs
      calc (x : ℚ) = (x : ℚ) * (1 / s) * s := by field_simp
        _ < ((x1 : ℚ) + 1) * s := h3
    have h4 : ((x : ℚ) - 1) < (x1 : ℚ) * s := by nlinarith
    rw [Int.le_floor]
    push_cast
    linarith
  · have hle : (x1 : ℚ) ≤ (x : ℚ) * (1 / s) := Int.floor_le _
    have h2 : (x1 : ℚ) * s ≤ (x : ℚ) := by
      have h3 : (x1 : ℚ) * s ≤ ((x : ℚ) * (1 / s)) * s :=
        mul_le_mul_of_nonneg_right hle (le_of_lt hs)
      calc (x1 : ℚ) * s ≤ (x : ℚ) * (1 / s) * s := h3
        _ = (x : ℚ) := by field_simp
    calc ⌊(x1 : ℚ) * s⌋ ≤ ⌊(x : ℚ)⌋ := Int.floor_le_floor h2
      _ = x := Int.floor_intCast x

/-- C8 (amended): a rectangle with non-negative coordinates scaled up by
`1/imgScale` (as `findImage` applies to matcher output) and then back down
by `imgScale` reproduces each coordinate to within ±1 pixel, for every
scale `0 < imgScale ≤ 1` (every pyramid scale has this form); the
round trip in the claim's order (down by `imgScale`, then up) can be off
by up to `1/imgScale - 1` pixels instead. -/
theorem matchScale_up_down_roundtrip (m : Match) (s : ℚ) (hs : 0 < s)
    (hs1 : s ≤ 1) (h1 : 0 ≤ m.bounds.minX) (h2 : 0 ≤ m.bounds.minY)
    (h3 : 0 ≤ m.bounds.maxX) (h4 : 0 ≤ m.bounds.maxY) :
    (((m.Scale (1 / s)).Scale s).bounds.minX - m.bounds.minX).natAbs ≤ 1 ∧
    (((m.Scale (1 / s)).Scale s).bounds.minY - m.bounds.minY).natAbs ≤ 1 ∧
    (((m.Scale (1 / s)).Scale s).bounds.maxX - m.bounds.maxX).natAbs ≤ 1 ∧
    (((m.Scale (1 / s)).Scale s).bounds.maxY - m.bounds.maxY).natAbs ≤ 1 := by
  have c1 := goInt_updown m.bounds.minX s h1 hs hs1
  have c2 := goInt_updown m.bounds.minY s h2 hs hs1
  have c3 := goInt_updown m.bounds.maxX s h3 hs hs1
  have c4 := goInt_updown m.bounds.maxY s h4 hs hs1
  simp only [Match.Scale] at c1 c2 c3 c4 ⊢
  exact ⟨by omega, by omega, by omega, by omega⟩

/-- Witness for C8 (amended) at a concrete rectangle and scale 1/2. -/
theorem matchScale_up_down_roundtrip_witness :
    ((((⟨⟨2, 3, 5, 7⟩, 1⟩ : Match).Scale (1 / (1 / 2))).Scale
        (1 / 2)).bounds.minX - (⟨⟨2, 3, 5, 7⟩, 1⟩ : Match).bounds.minX).natAbs
      ≤ 1 :=
  (matchScale_up_down_roundtrip ⟨⟨2, 3, 5, 7⟩, 1⟩ (1 / 2) (by norm_num)
    (by norm_num) (by norm_num) (by norm_num) (by norm_num) (by norm_num)).1

/-- The match used in the C8 counterexample: rectangle min corner at
x = 199. -/
def exMatch : Match := ⟨⟨199, 0, 200, 1⟩, 1⟩

/-- C8 counterexample: with the pyramid scale `imgScale = 8/800` (haystack
width 800 at outer width 8), scaling by `imgScale` and then by
`1/imgScale` moves x = 199 to 100: off by 99 pixels, not ±1. -/
theorem matchScale_roundtrip_counterexample :
    ¬ ((((exMatch.Scale (8 / 800)).Scale (1 / (8 / 800))).bounds.minX -
        exMatch.bounds.minX).natAbs ≤ 1) := by
  have hout : ((exMatch.Scale (8 / 800)).Scale (1 / (8 / 800))).bounds.minX = 100 := by
    simp only [Match.Scale, goInt, exMatch]
    norm_num
  rw [hout]
  simp [exMatch]

/-- The match shown in the README's tutorial output: bounds
(271,108)-(372,209) (a 101×101 rectangle), score 0.931709. -/
def readmeMatch : Match := ⟨⟨271, 108, 372, 209⟩, 931709 / 1000000⟩

/-- C9 (code bug): the text line printer (main.go:185) emits
`score minX minY maxX maxY` — the rectangle's max corner, not its width
and height as the README and the spec document — while the JSON
serialization does emit `bounds{x, y, w, h}` with `w = Dx()`, `h = Dy()`. -/
theorem printedFields_maxcoords_not_size :
    textLineFields readmeMatch = (931709 / 1000000, 271, 108, 372, 209) ∧
    jsonFields readmeMatch = ((271, 108, 101, 101), 931709 / 1000000) ∧
    readmeMatch.bounds.dx = 101 ∧ readmeMatch.bounds.dy = 101 ∧
    ((372 : Int), (209 : Int)) ≠ ((101 : Int), (101 : Int)) := by
  refine ⟨rfl, ?_, by norm_num [readmeMatch, Rect.dx],
    by norm_num [readmeMatch, Rect.dy], by norm_num⟩
  norm_num [jsonFields, readmeMatch, Rect.dx, Rect.dy]

theorem defaultOpts_min_pos (wsrc : Nat) (o : Opts) :
    0 < (defaultOpts wsrc o).imgMinWidth := by
  simp only [defaultOpts]
  split_ifs <;> simp_all <;> omega

theorem defaultOpts_max_of_zero (o : Opts) : (defaultOpts 0 o).imgMaxWidth = 0 := by
  simp only [defaultOpts]
  split_ifs with h1 <;> simp_all

/-- C7 (amended): `findImage` contains no input validation and has no error
channel at all (its result is a plain match list); nevertheless no division
by zero is reached for a zero-width haystack, because the defaulting clamp
sets `imgMaxWidth` to 0 and the pyramid loop body never runs: the search
returns the empty list, a normal value, for every needle, options,
resampler and worker count. -/
theorem findImage_zero_width_returns_empty
    (resample : Raster → Nat → Nat → Int → Nat) (hay sub : Raster)
    (opts : Opts) (nw : Nat) (hw : hay.w = 0) :
    findImage resample hay sub opts nw = [] := by
  simp only [findImage, hw]
  rw [outerLoop]
  rw [dif_pos]
  exact Or.inr (by rw [defaultOpts_max_of_zero]; exact defaultOpts_min_pos 0 opts)

/-- C7 counterexample: on a concrete zero-width haystack `findImage`
returns the empty list normally — there is no `InputError` rejection
before scaling (no error value exists in the function's type at all). -/
theorem findImage_zero_width_no_error_counterexample :
    findImage (fun _ _ _ _ => 0) ⟨0, 5, fun _ => 0⟩ ⟨2, 2, fun _ => 0⟩
      ⟨0, 0, 0, 0, 0⟩ 2 = [] := by
  simp only [findImage]
  rw [outerLoop]
  rw [dif_pos]
  exact Or.inr (by decide)

/-- Witness for C7 (amended) at a concrete zero-width haystack. -/
theorem findImage_zero_width_returns_empty_witness :
    findImage (fun _ _ _ _ => 1) ⟨0, 7, fun _ => 3⟩ ⟨3, 3, fun _ => 0⟩
      ⟨0, 0, 0, 0, 0⟩ 4 = [] :=
  findImage_zero_width_returns_empty _ _ _ _ _ rfl

theorem scan_length (k : Nat) :
    ∀ (l : List (Rect × Nat)) (st : List Match × List Nat),
      st.1.length ≤ k →
      (l.foldl (fun st p => topkStep k st p.1 p.2) st).1.length =
        min k (st.1.length + l.length) := by
  intro l
  induction l with
  | nil =>
    intro st hst
    simp only [List.foldl_nil, List.length_nil, Nat.add_zero]
    omega
  | cons p t ih =>
    intro st hst
    simp only [List.foldl_cons]
    by_cases hlen : st.1.length < k
    · have hstep : (topkStep k st p.1 p.2).1 = st.1 ++ [⟨p.1, (p.2 : ℚ)⟩] := by
        simp [topkStep, if_pos hlen]
      rw [ih _ (by rw [hstep]; simp; omega)]
      rw [hstep]
      simp only [List.length_append, List.length_cons, List.length_nil]
      omega
    · have hk : (topkStep k st p.1 p.2).1.length = st.1.length := by
        simp only [topkStep, if_neg hlen]
        split_ifs <;> simp
      rw [ih _ (by omega)]
      rw [hk]
      simp only [List.length_cons]
      omega

theorem scan_mem (k : Nat) :
    ∀ (l : List (Rect × Nat)) (st : List Match × List Nat),
      ∀ m ∈ (l.foldl (fun st p => topkStep k st p.1 p.2) st).1,
        m ∈ st.1 ∨ ∃ p ∈ l, m = (⟨p.1, (p.2 : ℚ)⟩ : Match) := by
  intro l
  induction l with
  | nil =>
    intro st m hm
    exact Or.inl hm
  | cons p t ih =>
    intro st m hm
    simp only [List.foldl_cons] at hm
    rcases ih _ m hm with hin | ⟨q, hq, rfl⟩
    · simp only [topkStep] at hin
      split_ifs at hin with h1 h2
      · rcases List.mem_append.mp hin with h | h
        · exact Or.inl h
        · simp only [List.mem_singleton] at h
          exact Or.inr ⟨p, by simp, h⟩
      · rcases List.mem_or_eq_of_mem_set hin with h | h
        · exact Or.inl h
        · exact Or.inr ⟨p, by simp, h⟩
      · exact Or.inl hin
    · exact Or.inr ⟨q, by simp [hq], rfl⟩

theorem rangeZ_mem (a b v : Int) : v ∈ rangeZ a b ↔ a ≤ v ∧ v < b := by
  simp only [rangeZ, List.mem_map, List.mem_range]
  constructor
  · rintro ⟨i, hi, rfl⟩
    omega
  · rintro ⟨h1, h2⟩
    exact ⟨(v - a).toNat, by omega, by omega⟩

theorem rangeZ_length (a b : Int) : (rangeZ a b).length = (b - a).toNat := by
  rw [rangeZ, List.length_map, List.length_range]

theorem workerOffsets_mem (img sub : Raster) (xa xb ya yb : Int) :
    ∀ q ∈ workerOffsets img sub xa xb ya yb,
      ∃ x y : Int, xa ≤ x ∧ x < xb ∧ ya ≤ y ∧ y < yb ∧
        q = (mkRect x y (x + sub.w) (y + sub.h), sumOfAbsDiffRGBA img x y sub) := by
  intro q hq
  simp only [workerOffsets, List.mem_flatMap, List.mem_map] at hq
  obtain ⟨y, hy, x, hx, rfl⟩ := hq
  rw [rangeZ_mem] at hy hx
  exact ⟨x, y, hx.1, hx.2, hy.1, hy.2, rfl⟩

theorem workerOffsets_length (img sub : Raster) (xa xb ya yb : Int) :
    (workerOffsets img sub xa xb ya yb).length =
      (yb - ya).toNat * (xb - xa).toNat := by
  simp only [workerOffsets, List.length_flatMap]
  rw [sum_map_const_of _ _ (xb - xa).toNat
    (fun p _ => by simp [rangeZ_length])]
  simp [rangeZ_length]

theorem sliceToK_mem (l : List Match) (k : Nat) :
    ∀ m ∈ sliceToK l k, m ∈ l ∨ m = zeroMatch := by
  intro m hm
  simp only [sliceToK] at hm
  split_ifs at hm
  · exact Or.inl (List.mem_of_mem_take hm)
  · rcases List.mem_append.mp hm with h | h
    · exact Or.inl h
    · exact Or.inr (List.eq_of_mem_replicate h)

theorem mkRect_of_le (x0 y0 x1 y1 : Int) (hx : x0 ≤ x1) (hy : y0 ≤ y1) :
    mkRect x0 y0 x1 y1 = ⟨x0, y0, x1, y1⟩ := by
  simp [mkRect, not_lt.mpr hx, not_lt.mpr hy]

theorem mkRect_offset (x y : Int) (w h : Nat) :
    mkRect x y (x + w) (y + h) = ⟨x, y, x + w, y + h⟩ :=
  mkRect_of_le _ _ _ _ (by omega) (by omega)

theorem convTopKRaw_mem_shape (img sub : Raster) (k0 nw : Nat) :
    ∀ m ∈ convTopKRaw img sub k0 nw,
      m = zeroMatch ∨ ∃ x y : Int,
        m = ⟨mkRect x y (x + sub.w) (y + sub.h),
          (sumOfAbsDiffRGBA img x y sub : ℚ)⟩ := by
  intro m hm
  simp only [convTopKRaw] at hm
  rcases sliceToK_mem _ _ m hm with h | h
  · have h2 := (List.perm_insertionSort (fun a b : Match => a.score ≤ b.score) _).subset h
    obtain ⟨i, _, hmem⟩ := List.mem_flatMap.mp h2
    rcases scan_mem _ _ _ m hmem with h3 | ⟨p, hp, rfl⟩
    · simp at h3
    · obtain ⟨x, y, _, _, _, _, hq⟩ := workerOffsets_mem _ _ _ _ _ _ p hp
      exact Or.inr ⟨x, y, by rw [hq]⟩
  · exact Or.inl h

/-- C1 (code bug): called with a needle exactly as large as the haystack
(both valid-offset extents are 0, so the needle does not fit and no offset
is scanned), `convolutionTopKParallel` does not return an empty list:
`matches[:k]` re-slices into the zeroed backing array of capacity
`k*numWorkers`, so the caller receives `k` phantom zero-value matches —
degenerate rectangle at the origin, score exactly 1.0 — and
`findImage`'s `len(divMatches) == 0` check (main.go:307) is dead code. -/
theorem convolutionTopKParallel_unfit_needle_not_empty :
    convolutionTopKParallel ⟨2, 2, fun _ => 0⟩ ⟨2, 2, fun _ => 0⟩ 1 2 =
      [⟨⟨0, 0, 0, 0⟩, 1⟩] ∧
    convolutionTopKParallel ⟨2, 2, fun _ => 0⟩ ⟨2, 2, fun _ => 0⟩ 1 2 ≠ [] := by
  have h : convTopKRaw ⟨2, 2, fun _ => 0⟩ ⟨2, 2, fun _ => 0⟩ 1 2 = [zeroMatch] := by
    decide
  constructor
  · simp [convolutionTopKParallel, h, normalizeMatch, zeroMatch]
  · simp [convolutionTopKParallel, h]

/-- C6 (amended): every Match returned by the per-scale matcher (needle
dimensions positive) has `score = 1 - raw/(needleW*needleH*255*3)` where
`raw` is the raw value held in its `Match` field: the
`sumOfAbsDiffRGBA` dissimilarity at the rectangle's min corner for a
scanned offset, or 0 for a zero-padded phantom entry (see C1/C2); a raw
sum of 0 yields score exactly 1, and every returned score is ≤ 1. -/
theorem convolutionTopKParallel_score_normalization (img sub : Raster)
    (k nw : Nat) (hw0 : 0 < sub.w) (hh0 : 0 < sub.h) :
    ∀ m ∈ convolutionTopKParallel img sub k nw,
      m.score ≤ 1 ∧
      ∃ raw : Nat,
        m.score = 1 - (raw : ℚ) / ((sub.w : ℚ) * (sub.h : ℚ) * 255 * 3) ∧
        (raw = 0 → m.score = 1) ∧
        (raw = 0 ∨ raw = sumOfAbsDiffRGBA img m.bounds.minX m.bounds.minY sub) := by
  intro m hm
  simp only [convolutionTopKParallel, List.mem_map] at hm
  obtain ⟨m0, hm0, rfl⟩ := hm
  have hD : (0 : ℚ) < (sub.w : ℚ) * (sub.h : ℚ) * 255 * 3 := by
    have h1 : (0 : ℚ) < (sub.w : ℚ) := by exact_mod_cast hw0
    have h2 : (0 : ℚ) < (sub.h : ℚ) := by exact_mod_cast hh0
    positivity
  rcases convTopKRaw_mem_shape img sub k nw m0 hm0 with rfl | ⟨x, y, rfl⟩
  · have hs : (normalizeMatch sub zeroMatch).score = 1 := by
      simp [normalizeMatch, zeroMatch]
    refine ⟨le_of_eq hs, 0, ?_, fun _ => hs, Or.inl rfl⟩
    rw [hs]
    norm_num
  · set s := sumOfAbsDiffRGBA img x y sub with hsdef
    have hb : (normalizeMatch sub ⟨mkRect x y (x + sub.w) (y + sub.h),
        (s : ℚ)⟩).bounds = ⟨x, y, x + sub.w, y + sub.h⟩ := by
      simp [normalizeMatch, mkRect_offset]
    have hs : (normalizeMatch sub ⟨mkRect x y (x + sub.w) (y + sub.h),
        (s : ℚ)⟩).score = 1 - (s : ℚ) / ((sub.w : ℚ) * (sub.h : ℚ) * 255 * 3) := by
      simp only [normalizeMatch]
      rw [mul_one_div]
    refine ⟨?_, s, hs, ?_, Or.inr ?_⟩
    · rw [hs]
      have : (0 : ℚ) ≤ (s : ℚ) / ((sub.w : ℚ) * (sub.h : ℚ) * 255 * 3) := by
        positivity
      linarith
    · intro h0
      rw [hs, h0]
      norm_num
    · rw [hb]

/-- The 3×3 all-white haystack of the C6 counterexample. -/
def cHay3 : Raster := ⟨3, 3, fun _ => 255⟩

/-- The 2×2 all-black needle of the C6 counterexample. -/
def cSub2 : Raster := ⟨2, 2, fun _ => 0⟩

/-- C6 counterexample: with a 1-offset region and k = 2 the second
returned Match is the zero-padded phantom (bounds at the origin, score
exactly 1), but `1 - rawSum(0,0)/(2*2*255*3)` at its offset is 0 ≠ 1, so
a returned score is not the normalized dissimilarity of its offset. -/
theorem convolutionTopKParallel_phantom_score_counterexample :
    (convolutionTopKParallel cHay3 cSub2 2 2).getD 1 zeroMatch =
      ⟨⟨0, 0, 0, 0⟩, 1⟩ ∧
    (1 : ℚ) ≠ 1 - (sumOfAbsDiffRGBA cHay3 0 0 cSub2 : ℚ) /
      ((cSub2.w : ℚ) * (cSub2.h : ℚ) * 255 * 3) := by
  have hraw : convTopKRaw cHay3 cSub2 2 2 =
      [⟨⟨0, 0, 2, 2⟩, ((3060 : Nat) : ℚ)⟩, zeroMatch] := by decide
  have hsum : sumOfAbsDiffRGBA cHay3 0 0 cSub2 = 3060 := by decide
  constructor
  · simp only [convolutionTopKParallel, hraw]
    simp [normalizeMatch, zeroMatch]
  · rw [hsum]
    norm_num [cSub2]

/-- Witness for C6 (amended) at the single Match returned on a concrete
4×4/2×2 all-zero pair. -/
theorem convolutionTopKParallel_score_normalization_witness :
    ((⟨⟨0, 0, 2, 2⟩, 1⟩ : Match).score ≤ 1 ∧
      ∃ raw : Nat,
        (⟨⟨0, 0, 2, 2⟩, 1⟩ : Match).score =
          1 - (raw : ℚ) / (((⟨2, 2, fun _ => 0⟩ : Raster).w : ℚ) *
            ((⟨2, 2, fun _ => 0⟩ : Raster).h : ℚ) * 255 * 3) ∧
        (raw = 0 → (⟨⟨0, 0, 2, 2⟩, 1⟩ : Match).score = 1) ∧
        (raw = 0 ∨ raw = sumOfAbsDiffRGBA ⟨4, 4, fun _ => 0⟩
          (⟨⟨0, 0, 2, 2⟩, 1⟩ : Match).bounds.minX
          (⟨⟨0, 0, 2, 2⟩, 1⟩ : Match).bounds.minY ⟨2, 2, fun _ => 0⟩)) := by
  have hmem : (⟨⟨0, 0, 2, 2⟩, 1⟩ : Match) ∈
      convolutionTopKParallel ⟨4, 4, fun _ => 0⟩ ⟨2, 2, fun _ => 0⟩ 1 2 := by
    have h : convTopKRaw ⟨4, 4, fun _ => 0⟩ ⟨2, 2, fun _ => 0⟩ 1 2 =
        [⟨⟨0, 0, 2, 2⟩, ((0 : Nat) : ℚ)⟩] := by decide
    simp [convolutionTopKParallel, h, normalizeMatch]
  exact convolutionTopKParallel_score_normalization ⟨4, 4, fun _ => 0⟩
    ⟨2, 2, fun _ => 0⟩ 1 2 (by norm_num) (by norm_num) _ hmem

theorem scanTopK_length (k : Nat) (l : List (Rect × Nat)) :
    (scanTopK k l).1.length = min k l.length := by
  have h := scan_length k l ([], []) (by simp)
  simpa [scanTopK] using h

theorem sliceToK_length (l : List Match) (k : Nat) :
    (sliceToK l k).length ≤ k := by
  simp only [sliceToK]
  split_ifs with h
  · simp [Nat.min_le_left]
  · simp
    omega

theorem sliceToK_subset_of_le (l : List Match) (k : Nat) (h : k ≤ l.length) :
    ∀ m ∈ sliceToK l k, m ∈ l := by
  intro m hm
  simp only [sliceToK, if_pos h] at hm
  exact List.mem_of_mem_take hm

theorem min_sum_le (k : Nat) :
    ∀ l : List Nat, min k l.sum ≤ (l.map (fun a => min k a)).sum := by
  intro l
  induction l with
  | nil => simp
  | cons a t ih =>
    simp only [List.sum_cons, List.map_cons]
    have h1 : min k (a + t.sum) ≤ min k a + min k t.sum := by omega
    exact le_trans h1 (Nat.add_le_add_left ih _)

theorem rows_sum (H : Int) (hH : 0 ≤ H) (nw : Nat) (hnw : 1 ≤ nw) :
    ((List.range nw).map (fun i =>
      ((if i = nw - 1 then H
        else (i : Int) * (H / (nw : Int)) + H / (nw : Int)) -
        (i : Int) * (H / (nw : Int))).toNat)).sum = H.toNat := by
  obtain ⟨n, rfl⟩ : ∃ n, nw = n + 1 := ⟨nw - 1, by omega⟩
  have hnz : ((n + 1 : Nat) : Int) ≠ 0 := by positivity
  set q : Int := H / ((n + 1 : Nat) : Int) with hqdef
  have hq0 : 0 ≤ q := Int.ediv_nonneg hH (by positivity)
  have hmul : ((n + 1 : Nat) : Int) * q + H % ((n + 1 : Nat) : Int) = H :=
    Int.ediv_add_emod H _
  have hr0 : 0 ≤ H % ((n + 1 : Nat) : Int) := Int.emod_nonneg H hnz
  rw [List.range_succ, List.map_append, List.sum_append]
  have h1 : ((List.range n).map (fun i =>
      ((if i = n + 1 - 1 then H
        else (i : Int) * q + q) - (i : Int) * q).toNat)).sum = n * q.toNat := by
    rw [sum_map_const_of _ _ q.toNat ?_]
    · simp
    · intro i hi
      rw [List.mem_range] at hi
      rw [if_neg (by omega), add_sub_cancel_left]
  have h2 : ((List.map (fun i =>
      ((if i = n + 1 - 1 then H
        else (i : Int) * q + q) - (i : Int) * q).toNat) [n])).sum =
      (H - (n : Int) * q).toNat := by
    simp
  rw [h1, h2]
  have hQ : ((q.toNat : Int)) = q := Int.toNat_of_nonneg hq0
  have hle : ((n * q.toNat : Nat) : Int) ≤ H := by
    push_cast
    rw [hQ]
    calc (n : Int) * q ≤ ((n : Int) + 1) * q :=
          mul_le_mul_of_nonneg_right (by omega) hq0
      _ ≤ H := by push_cast at hmul hr0; linarith
  have hsub : (H - (n : Int) * q).toNat = H.toNat - n * q.toNat := by
    have : H - (n : Int) * q = ((H.toNat : Int)) - ((n * q.toNat : Nat) : Int) := by
      push_cast
      rw [hQ, Int.toNat_of_nonneg hH]
    rw [this, Int.toNat_sub']
    · omega
  rw [hsub]
  have hle2 : n * q.toNat ≤ H.toNat := by
    have := hle
    omega
  omega

theorem sum_map_mul_right {α : Type} (l : List α) (f : α → Nat) (c : Nat) :
    (l.map (fun i => f i * c)).sum = (l.map f).sum * c := by
  induction l with
  | nil => simp
  | cons a t ih => simp [ih, Nat.add_mul]

theorem sliceToK_sort_mem (l : List Match) (k : Nat) (h : k ≤ l.length) :
    ∀ m ∈ sliceToK
      (List.insertionSort (fun a b : Match => a.score ≤ b.score) l) k, m ∈ l := by
  intro m hm
  have h2 : k ≤ (List.insertionSort
      (fun a b : Match => a.score ≤ b.score) l).length := by
    rw [List.length_insertionSort]
    exact h
  exact (List.perm_insertionSort _ _).subset (sliceToK_subset_of_le _ _ h2 m hm)

theorem convTopKRaw_no_pad (img sub : Raster) (k nw : Nat)
    (hk : 1 ≤ k) (hnw : 1 ≤ nw) (hw : sub.w ≤ img.w) (hh : sub.h ≤ img.h)
    (harea : k ≤ (img.h - sub.h) * (img.w - sub.w)) :
    ∀ m ∈ convTopKRaw img sub k nw, ∃ x y : Int,
      0 ≤ x ∧ x < (img.w : Int) - sub.w ∧ 0 ≤ y ∧ y < (img.h : Int) - sub.h ∧
      m = ⟨mkRect x y (x + sub.w) (y + sub.h),
        (sumOfAbsDiffRGBA img x y sub : ℚ)⟩ := by
  intro m hm
  have hkk : (if k < 1 then 1 else k) = k := by rw [if_neg (by omega)]
  have hW : (0 : Int) ≤ (img.w : Int) - sub.w := by omega
  have hH : (0 : Int) ≤ (img.h : Int) - sub.h := by omega
  have hnwz : (0 : Int) < (nw : Int) := by exact_mod_cast hnw
  simp only [convTopKRaw, hkk,
    mkRect_of_le 0 0 ((img.w : Int) - sub.w) ((img.h : Int) - sub.h) hW hH,
    Rect.dy, zero_add, sub_zero] at hm
  set W : Int := (img.w : Int) - sub.w with hWdef
  set H : Int := (img.h : Int) - sub.h with hHdef
  set q : Int := H / (nw : Int) with hqdef
  have hq0 : 0 ≤ q := Int.ediv_nonneg hH (le_of_lt hnwz)
  have hnwq : (nw : Int) * q ≤ H := by
    have h1 := Int.ediv_add_emod H (nw : Int)
    have h2 := Int.emod_nonneg H (ne_of_gt hnwz)
    rw [← hqdef] at h1
    linarith
  have hmem := sliceToK_sort_mem _ k ?hlen m hm
  obtain ⟨i, hi, hmem2⟩ := List.mem_flatMap.mp hmem
  rw [List.mem_range] at hi
  rcases scan_mem _ _ _ m hmem2 with h3 | ⟨p, hp, rfl⟩
  · simp at h3
  · obtain ⟨x, y, hxa, hxb, hya, hyb, hq2⟩ := workerOffsets_mem _ _ _ _ _ _ p hp
    refine ⟨x, y, hxa, hxb, ?_, ?_, by rw [hq2]⟩
    · have : (0 : Int) ≤ (i : Int) * q :=
        mul_nonneg (by exact_mod_cast Nat.zero_le i) hq0
      linarith
    · by_cases hlast : i = nw - 1
      · rw [if_pos hlast] at hyb
        exact hyb
      · rw [if_neg hlast] at hyb
        have h5 : ((i : Int) + 1) * q ≤ (nw : Int) * q :=
          mul_le_mul_of_nonneg_right (by exact_mod_cast hi) hq0
        nlinarith
  case hlen =>
    -- the collected fan-in holds at least k candidates
    rw [List.length_flatMap]
    simp only [Function.comp_def]
    have hcongr : ∀ i ∈ List.range nw,
        ((scanTopK k (workerOffsets img sub 0 W ((i : Int) * q)
          (if i = nw - 1 then H else (i : Int) * q + q))).1).length =
        min k (((if i = nw - 1 then H
          else (i : Int) * q + q) - (i : Int) * q).toNat * W.toNat) := by
      intro i _
      rw [scanTopK_length, workerOffsets_length, sub_zero]
    rw [List.map_congr_left hcongr]
    have hmm : (List.range nw).map (fun i =>
        min k (((if i = nw - 1 then H
          else (i : Int) * q + q) - (i : Int) * q).toNat * W.toNat)) =
        ((List.range nw).map (fun i =>
          ((if i = nw - 1 then H
            else (i : Int) * q + q) - (i : Int) * q).toNat * W.toNat)).map
          (fun a => min k a) := by
      rw [List.map_map]
      simp [Function.comp]
    rw [hmm]
    have hsum : ((List.range nw).map (fun i =>
        ((if i = nw - 1 then H
          else (i : Int) * q + q) - (i : Int) * q).toNat * W.toNat)).sum =
        H.toNat * W.toNat := by
      rw [sum_map_mul_right, rows_sum H hH nw hnw]
    have hge : k ≤ ((List.range nw).map (fun i =>
        ((if i = nw - 1 then H
          else (i : Int) * q + q) - (i : Int) * q).toNat * W.toNat)).sum := by
      rw [hsum]
      have hWn : W.toNat = img.w - sub.w := by omega
      have hHn : H.toNat = img.h - sub.h := by omega
      rw [hWn, hHn]
      exact harea
    calc k = min k ((List.range nw).map (fun i =>
          ((if i = nw - 1 then H
            else (i : Int) * q + q) - (i : Int) * q).toNat * W.toNat)).sum := by
          omega
      _ ≤ _ := min_sum_le _ _

/-- C2 (amended): with k ≥ 1 and a valid offset region holding at least k
offsets, the per-scale matcher returns at most k Matches, and every
returned Match's rectangle sits at an offset inside
`[0, haystackW-needleW) × [0, haystackH-needleH)` with width = needleW,
height = needleH, and positive area.  (When the region holds fewer than k
offsets the list is instead padded to length k with zero-value phantom
matches whose rectangle is degenerate — see the counterexample.) -/
theorem convolutionTopKParallel_topk_in_range (img sub : Raster) (k nw : Nat)
    (hk : 1 ≤ k) (hnw : 1 ≤ nw) (hw0 : 0 < sub.w) (hh0 : 0 < sub.h)
    (hw : sub.w ≤ img.w) (hh : sub.h ≤ img.h)
    (harea : k ≤ (img.h - sub.h) * (img.w - sub.w)) :
    (convolutionTopKParallel img sub k nw).length ≤ k ∧
    ∀ m ∈ convolutionTopKParallel img sub k nw,
      ∃ x y : Int, 0 ≤ x ∧ x < (img.w : Int) - sub.w ∧
        0 ≤ y ∧ y < (img.h : Int) - sub.h ∧
        m.bounds = ⟨x, y, x + sub.w, y + sub.h⟩ ∧
        m.bounds.dx = sub.w ∧ m.bounds.dy = sub.h ∧
        0 < m.bounds.dx * m.bounds.dy := by
  have hkk : (if k < 1 then 1 else k) = k := by rw [if_neg (by omega)]
  constructor
  · simp only [convolutionTopKParallel, List.length_map, convTopKRaw, hkk]
    exact sliceToK_length _ _
  · intro m hm
    simp only [convolutionTopKParallel, List.mem_map] at hm
    obtain ⟨m0, hm0, rfl⟩ := hm
    obtain ⟨x, y, h1, h2, h3, h4, rfl⟩ :=
      convTopKRaw_no_pad img sub k nw hk hnw hw hh harea m0 hm0
    have hb : (normalizeMatch sub ⟨mkRect x y (x + sub.w) (y + sub.h),
        (sumOfAbsDiffRGBA img x y sub : ℚ)⟩).bounds =
        ⟨x, y, x + sub.w, y + sub.h⟩ := by
      simp [normalizeMatch, mkRect_offset]
    refine ⟨x, y, h1, h2, h3, h4, hb, ?_, ?_, ?_⟩
    · rw [hb]
      simp [Rect.dx, add_sub_cancel_left]
    · rw [hb]
      simp [Rect.dy, add_sub_cancel_left]
    · rw [hb]
      simp only [Rect.dx, Rect.dy, add_sub_cancel_left]
      exact_mod_cast Nat.mul_pos hw0 hh0

/-- C2 counterexample: a 3×3 haystack and 2×2 needle leave a single valid
offset; with k = 2 the matcher pads its result with a zero-value phantom
match whose rectangle is degenerate (zero area, width ≠ needle width). -/
theorem convolutionTopKParallel_pad_degenerate_counterexample :
    convolutionTopKParallel ⟨3, 3, fun _ => 0⟩ ⟨2, 2, fun _ => 0⟩ 2 2 =
      [⟨⟨0, 0, 2, 2⟩, 1⟩, ⟨⟨0, 0, 0, 0⟩, 1⟩] ∧
    (⟨0, 0, 0, 0⟩ : Rect).dx * (⟨0, 0, 0, 0⟩ : Rect).dy = 0 := by
  have h : convTopKRaw ⟨3, 3, fun _ => 0⟩ ⟨2, 2, fun _ => 0⟩ 2 2 =
      [⟨⟨0, 0, 2, 2⟩, ((0 : Nat) : ℚ)⟩, zeroMatch] := by decide
  constructor
  · simp only [convolutionTopKParallel, h]
    simp [normalizeMatch, zeroMatch]
  · simp [Rect.dx, Rect.dy]

/-- Witness for C2 (amended) on a concrete 4×4/2×2 all-zero pair. -/
theorem convolutionTopKParallel_topk_in_range_witness :
    (convolutionTopKParallel ⟨4, 4, fun _ => 0⟩ ⟨2, 2, fun _ => 0⟩ 2 2).length ≤ 2 ∧
    (∃ x y : Int, 0 ≤ x ∧
      x < ((⟨4, 4, fun _ => 0⟩ : Raster).w : Int) -
        ((⟨2, 2, fun _ => 0⟩ : Raster).w : Int) ∧
      0 ≤ y ∧
      y < ((⟨4, 4, fun _ => 0⟩ : Raster).h : Int) -
        ((⟨2, 2, fun _ => 0⟩ : Raster).h : Int) ∧
      (⟨⟨0, 0, 2, 2⟩, (1 : ℚ)⟩ : Match).bounds =
        ⟨x, y, x + ((⟨2, 2, fun _ => 0⟩ : Raster).w : Int),
          y + ((⟨2, 2, fun _ => 0⟩ : Raster).h : Int)⟩ ∧
      (⟨⟨0, 0, 2, 2⟩, (1 : ℚ)⟩ : Match).bounds.dx =
        ((⟨2, 2, fun _ => 0⟩ : Raster).w : Int) ∧
      (⟨⟨0, 0, 2, 2⟩, (1 : ℚ)⟩ : Match).bounds.dy =
        ((⟨2, 2, fun _ => 0⟩ : Raster).h : Int) ∧
      0 < (⟨⟨0, 0, 2, 2⟩, (1 : ℚ)⟩ : Match).bounds.dx *
        (⟨⟨0, 0, 2, 2⟩, (1 : ℚ)⟩ : Match).bounds.dy) := by
  have h := convolutionTopKParallel_topk_in_range ⟨4, 4, fun _ => 0⟩
    ⟨2, 2, fun _ => 0⟩ 2 2 (by norm_num) (by norm_num) (by norm_num)
    (by norm_num) (by norm_num) (by norm_num) (by norm_num)
  refine ⟨h.1, ?_⟩
  have hraw : convTopKRaw ⟨4, 4, fun _ => 0⟩ ⟨2, 2, fun _ => 0⟩ 2 2 =
      [⟨⟨0, 0, 2, 2⟩, ((0 : Nat) : ℚ)⟩, ⟨⟨1, 0, 3, 2⟩, ((0 : Nat) : ℚ)⟩] := by
    decide
  have hmem : (⟨⟨0, 0, 2, 2⟩, (1 : ℚ)⟩ : Match) ∈
      convolutionTopKParallel ⟨4, 4, fun _ => 0⟩ ⟨2, 2, fun _ => 0⟩ 2 2 := by
    simp only [convolutionTopKParallel, hraw, List.map_cons, List.map_nil]
    simp [normalizeMatch]
  exact h.2 _ hmem

theorem maxDiffIndex_fold_spec (l : List Nat) :
    ∀ (I : List Nat) (m0 : Nat), (∀ j ∈ I, j < l.length) → m0 < l.length →
      (I.foldl (fun mi i => if l.getD i 0 > l.getD mi 0 then i else mi) m0)
        < l.length ∧
      l.getD m0 0 ≤
        l.getD (I.foldl (fun mi i =>
          if l.getD i 0 > l.getD mi 0 then i else mi) m0) 0 ∧
      ∀ j ∈ I, l.getD j 0 ≤
        l.getD (I.foldl (fun mi i =>
          if l.getD i 0 > l.getD mi 0 then i else mi) m0) 0 := by
  intro I
  induction I with
  | nil =>
    intro m0 _ hm0
    exact ⟨hm0, le_refl _, by simp⟩
  | cons i I ih =>
    intro m0 hI hm0
    simp only [List.foldl_cons]
    have hi : i < l.length := hI i (by simp)
    have hI2 : ∀ j ∈ I, j < l.length := fun j hj => hI j (by simp [hj])
    by_cases hgt : l.getD i 0 > l.getD m0 0
    · rw [if_pos hgt]
      obtain ⟨ha, hb, hc⟩ := ih i hI2 hi
      refine ⟨ha, le_trans (le_of_lt hgt) hb, ?_⟩
      intro j hj
      rcases List.mem_cons.mp hj with rfl | hj2
      · exact hb
      · exact hc j hj2
    · rw [if_neg hgt]
      obtain ⟨ha, hb, hc⟩ := ih m0 hI2 hm0
      refine ⟨ha, hb, ?_⟩
      intro j hj
      rcases List.mem_cons.mp hj with rfl | hj2
      · exact le_trans (not_lt.mp hgt) hb
      · exact hc j hj2

theorem maxDiffIndex_spec (l : List Nat) (hne : l ≠ []) :
    maxDiffIndex l < l.length ∧
    ∀ r ∈ l, r ≤ l.getD (maxDiffIndex l) 0 := by
  have hlen : 0 < l.length := List.length_pos.mpr hne
  have hI : ∀ j ∈ (List.range l.length).drop 1, j < l.length := by
    intro j hj
    have := List.mem_of_mem_drop hj
    rw [List.mem_range] at this
    exact this
  obtain ⟨ha, hb, hc⟩ := maxDiffIndex_fold_spec l
    ((List.range l.length).drop 1) 0 hI hlen
  refine ⟨ha, ?_⟩
  intro r hr
  obtain ⟨j, hj, rfl⟩ := List.mem_iff_getElem.mp hr
  have hjd : l[j] = l.getD j 0 := by
    simp [List.getD_eq_getElem?_getD, List.getElem?_eq_getElem hj]
  rw [hjd]
  by_cases hj0 : j = 0
  · subst hj0
    exact hb
  · refine hc j ?_
    obtain ⟨m, hm⟩ : ∃ m, l.length = m + 1 := ⟨l.length - 1, by omega⟩
    rw [hm, List.range_succ_eq_map]
    simp only [List.drop_succ_cons, List.drop_zero]
    simp only [List.mem_map, List.mem_range]
    exact ⟨j - 1, by omega, by omega⟩

theorem count_set_eq (l : List Nat) (i : Nat) (h : i < l.length) (a t : Nat) :
    (l.set i a).count t + (if l.getD i 0 = t then 1 else 0) =
    l.count t + (if a = t then 1 else 0) := by
  rw [List.set_eq_take_cons_drop a h]
  conv_rhs => rw [← List.take_append_drop i l]
  rw [List.drop_eq_getElem_cons h]
  have hjd : l.getD i 0 = l[i] := by
    simp [List.getD_eq_getElem?_getD, List.getElem?_eq_getElem h]
  simp only [List.count_append, List.count_cons, hjd, beq_iff_eq]
  split_ifs <;> omega

/-- The state invariant of one worst-replacement scan pass with cap `k`:
`matches` and `minSums` stay in length lockstep, exactly `min k n` of the
`n` sums seen so far are retained, the retained sums are a sub-multiset of
the sums seen, nothing is dropped before the list fills, and every sum
seen but not retained is ≥ every retained sum. -/
def topkInv (k : Nat) (st : List Match × List Nat) (S : List Nat) : Prop :=
  st.1.length = st.2.length ∧
  st.2.length = min k S.length ∧
  (∀ t, st.2.count t ≤ S.count t) ∧
  (st.2.length < k → ∀ t, st.2.count t = S.count t) ∧
  (∀ t, st.2.count t < S.count t → ∀ r ∈ st.2, r ≤ t)

theorem count_append_singleton (S : List Nat) (s t : Nat) :
    (S ++ [s]).count t = S.count t + (if s = t then 1 else 0) := by
  simp only [List.count_append, List.count_cons, List.count_nil, beq_iff_eq]
  omega

theorem topkStep_inv (k : Nat) (M : List Match) (L : List Nat) (S : List Nat)
    (b : Rect) (s : Nat) (h : topkInv k (M, L) S) :
    topkInv k (topkStep k (M, L) b s) (S ++ [s]) := by
  obtain ⟨h1, h2, h3, h4, h5⟩ := h
  simp only at h1 h2 h3 h4 h5
  by_cases hfull : M.length < k
  · -- append while not yet full; nothing has ever been dropped
    simp only [topkStep, if_pos hfull]
    have hLk : L.length < k := by omega
    have heq : ∀ t, L.count t = S.count t := h4 hLk
    refine ⟨?_, ?_, ?_, ?_, ?_⟩
    · simp [h1]
    · simp only [List.length_append, List.length_cons, List.length_nil,
        List.length_singleton]
      omega
    · intro t
      rw [count_append_singleton, count_append_singleton, heq t]
    · intro _ t
      rw [count_append_singleton, count_append_singleton, heq t]
    · intro t hlt r _
      rw [count_append_singleton, count_append_singleton, heq t] at hlt
      omega
  · -- full: worst-replacement or keep
    have hLk : L.length = k := by omega
    have hSk : k ≤ S.length := by omega
    simp only [topkStep, if_neg hfull]
    by_cases hrep : s < L.getD (maxDiffIndex L) 0
    · rw [if_pos hrep]
      have hne : L ≠ [] := by
        intro h0
        rw [h0] at hrep
        simp [List.getD] at hrep
      obtain ⟨hmi, hmax⟩ := maxDiffIndex_spec L hne
      have hMmem : L.getD (maxDiffIndex L) 0 ∈ L := by
        have : L.getD (maxDiffIndex L) 0 = L[maxDiffIndex L] := by
          simp [List.getD_eq_getElem?_getD, List.getElem?_eq_getElem hmi]
        rw [this]
        exact List.getElem_mem hmi
      refine ⟨?_, ?_, ?_, ?_, ?_⟩
      · simp [h1]
      · simp only [List.length_set, List.length_append, List.length_cons,
          List.length_nil]
        omega
      · intro t
        dsimp only
        have hcs := count_set_eq L (maxDiffIndex L) hmi s t
        rw [count_append_singleton]
        have := h3 t
        split_ifs at hcs ⊢ <;> omega
      · intro habs
        simp only [List.length_set] at habs
        omega
      · intro t hlt r hr
        dsimp only at hlt hr
        have hcs := count_set_eq L (maxDiffIndex L) hmi s t
        rw [count_append_singleton] at hlt
        rcases List.mem_or_eq_of_mem_set hr with hrL | hres
        · by_cases hMt : L.getD (maxDiffIndex L) 0 = t
          · exact le_trans (hmax r hrL) (le_of_eq hMt)
          · by_cases hst : s = t
            · exfalso
              rw [if_neg hMt, if_pos hst] at hcs
              rw [if_pos hst] at hlt
              have hLS : L.count t < S.count t := by omega
              have := h5 t hLS (L.getD (maxDiffIndex L) 0) hMmem
              omega
            · rw [if_neg hMt, if_neg hst] at hcs
              rw [if_neg hst] at hlt
              have hLS : L.count t < S.count t := by omega
              exact h5 t hLS r hrL
        · by_cases hMt : L.getD (maxDiffIndex L) 0 = t
          · rw [hres]
            omega
          · by_cases hst : s = t
            · rw [hres]
              omega
            · rw [if_neg hMt, if_neg hst] at hcs
              rw [if_neg hst] at hlt
              have hLS : L.count t < S.count t := by omega
              have := h5 t hLS (L.getD (maxDiffIndex L) 0) hMmem
              rw [hres]
              omega
    · rw [if_neg hrep]
      refine ⟨h1, ?_, ?_, ?_, ?_⟩
      · simp only [List.length_append, List.length_cons, List.length_nil]
        omega
      · intro t
        dsimp only
        rw [count_append_singleton]
        have := h3 t
        omega
      · intro habs
        dsimp only at habs
        omega
      · intro t hlt r hr
        dsimp only at hlt hr
        have hne : L ≠ [] := List.ne_nil_of_mem hr
        rw [count_append_singleton] at hlt
        by_cases hst : s = t
        · obtain ⟨_, hmax⟩ := maxDiffIndex_spec L hne
          calc r ≤ L.getD (maxDiffIndex L) 0 := hmax r hr
            _ ≤ s := not_lt.mp hrep
            _ = t := hst
        · rw [if_neg hst] at hlt
          have hLS : L.count t < S.count t := by omega
          exact h5 t hLS r hr

theorem scan_inv (k : Nat) :
    ∀ (l : List (Rect × Nat)) (st : List Match × List Nat) (S : List Nat),
      topkInv k st S →
      topkInv k (l.foldl (fun st p => topkStep k st p.1 p.2) st)
        (S ++ l.map Prod.snd) := by
  intro l
  induction l with
  | nil =>
    intro st S h
    simpa using h
  | cons p t ih =>
    intro st S h
    simp only [List.foldl_cons, List.map_cons]
    have h2 := ih (topkStep k st p.1 p.2) (S ++ [p.2])
      (by obtain ⟨M, L⟩ := st; exact topkStep_inv k M L S p.1 p.2 h)
    rw [List.append_assoc] at h2
    simpa using h2

/-- C4 (amended): during a single scan pass with cap `k`, after each prefix
of the (bounds, raw sum) stream the candidate list holds exactly
`min k n` of the `n` sums seen, a sub-multiset of them, and every sum
seen-but-not-retained is ≥ every retained sum; at the full stream this
says the list holds exactly the `k` smallest raw sums as a multiset.
(The claim's "earliest-seen preferred on ties" is false — the slot-index
tie-break of `maxDiffIndex` can evict the earliest-seen of two equal
sums; see the counterexample.) -/
theorem scanTopK_k_smallest (k : Nat) (l : List (Rect × Nat)) (n : Nat) :
    (scanTopK k (l.take n)).1.length = (scanTopK k (l.take n)).2.length ∧
    (scanTopK k (l.take n)).2.length = min k (l.take n).length ∧
    (∀ t, (scanTopK k (l.take n)).2.count t ≤
      ((l.take n).map Prod.snd).count t) ∧
    (∀ t, (scanTopK k (l.take n)).2.count t <
        ((l.take n).map Prod.snd).count t →
      ∀ r ∈ (scanTopK k (l.take n)).2, r ≤ t) := by
  have hbase : topkInv k ([], []) [] := by
    refine ⟨rfl, by simp, by simp, by simp, by simp⟩
  have h := scan_inv k (l.take n) ([], []) [] hbase
  rw [List.nil_append] at h
  obtain ⟨h1, h2, h3, h4, h5⟩ := h
  exact ⟨h1, by simpa using h2, h3, h5⟩

/-- The three offsets of the C4 counterexample, with distinct bounds. -/
def rectA : Rect := ⟨0, 0, 10, 10⟩

/-- Second offset of the C4 counterexample. -/
def rectB : Rect := ⟨1, 1, 11, 11⟩

/-- Third offset of the C4 counterexample. -/
def rectC : Rect := ⟨2, 2, 12, 12⟩

/-- C4 counterexample: scanning sums 5, 5, 4 with k = 2, the final list
retains the SECOND-seen 5 (rectB) and drops the first-seen one (rectA):
`maxDiffIndex`'s lowest-index tie-break applies to list slots, not arrival
order, so on ties the earliest-seen offset is the one evicted — the
claim's "earliest-seen preferred on ties" is false. -/
theorem scanTopK_tie_not_earliest_counterexample :
    (scanTopK 2 [(rectA, 5), (rectB, 5), (rectC, 4)]).1 =
      [⟨rectC, ((4 : Nat) : ℚ)⟩, ⟨rectB, ((5 : Nat) : ℚ)⟩] ∧
    (⟨rectA, ((5 : Nat) : ℚ)⟩ : Match) ∉
      (scanTopK 2 [(rectA, 5), (rectB, 5), (rectC, 4)]).1 ∧
    (⟨rectB, ((5 : Nat) : ℚ)⟩ : Match) ∈
      (scanTopK 2 [(rectA, 5), (rectB, 5), (rectC, 4)]).1 ∧
    rectA ≠ rectB := by
  refine ⟨by decide, by decide, by decide, by decide⟩

/-- Witness for C4 (amended) on the concrete stream 5, 5, 4 with k = 2. -/
theorem scanTopK_k_smallest_witness :
    (scanTopK 2 ([(rectA, 5), (rectB, 5), (rectC, 4)].take 3)).2.length =
      min 2 ([((rectA : Rect), (5 : Nat)), (rectB, 5), (rectC, 4)].take 3).length ∧
    (4 : Nat) ≤ 5 :=
  ⟨(scanTopK_k_smallest 2 [(rectA, 5), (rectB, 5), (rectC, 4)] 3).2.1,
   (scanTopK_k_smallest 2 [(rectA, 5), (rectB, 5), (rectC, 4)] 3).2.2.2 5
     (by decide) 4 (by decide)⟩

/-- Fuel irrelevance for the inner loop body: any fuel covering the
remaining iteration bound `opts.subMaxDiv + 1 - div` yields the same
result, so `innerLoop`'s choice of fuel is canonical. -/
theorem innerLoopGo_fuel_irrel (resample : Raster → Nat → Nat → Int → Nat)
    (img subsrc : Raster) (imgWidth imgHeight : Nat) (imgScale : ℚ)
    (opts : Opts) (nw : Nat) :
    ∀ f1 f2 div lastTop acc, 1 ≤ div →
      opts.subMaxDiv + 1 - div ≤ f1 → opts.subMaxDiv + 1 - div ≤ f2 →
      innerLoopGo resample img subsrc imgWidth imgHeight imgScale opts nw
        f1 div lastTop acc =
      innerLoopGo resample img subsrc imgWidth imgHeight imgScale opts nw
        f2 div lastTop acc := by
  intro f1
  induction f1 with
  | zero =>
    intro f2 div lastTop acc hdiv h1 h2
    have hgt : opts.subMaxDiv < div := by omega
    cases f2 with
    | zero => rfl
    | succ g2 => simp only [innerLoopGo, if_pos hgt]
  | succ g1 ih =>
    intro f2 div lastTop acc hdiv h1 h2
    cases f2 with
    | zero =>
      have hgt : opts.subMaxDiv < div := by omega
      simp only [innerLoopGo, if_pos hgt]
    | succ g2 =>
      by_cases hgt : opts.subMaxDiv < div
      · simp only [innerLoopGo, if_pos hgt]
      · simp only [innerLoopGo, if_neg hgt]
        by_cases hcond : (innerDims subsrc imgScale div).1 *
            (innerDims subsrc imgScale div).2 < (opts.subMinArea : Int) ∨
            (imgWidth : Int) ≤ (innerDims subsrc imgScale div).1 ∨
            (imgHeight : Int) ≤ (innerDims subsrc imgScale div).2
        · simp only [if_pos hcond]
        · simp only [if_neg hcond]
          cases hconv : convolutionTopKParallel img
              (resizeImage resample subsrc (innerDims subsrc imgScale div).1.toNat
                (innerDims subsrc imgScale div).2.toNat) opts.k nw with
          | nil => rfl
          | cons divTop rest =>
            by_cases hlt : divTop.score < lastTop
            · simp only [if_pos hlt]
            · simp only [if_neg hlt]
              exact ih g2 (div * 2) divTop.score _ (by omega) (by omega) (by omega)

/-- C3: the early-stop heuristic of `findImage` (main.go:325-331).  At an
inner step that is not skipped (needle size valid) and whose matcher
result is non-empty: if the best (first) score is strictly below the
previous step's `lastTopMatch`, the inner loop immediately returns the
accumulated matches — the PREVIOUS step's coordinate-corrected result —
with `done = true`; otherwise `lastTopMatch` becomes the current best
score and the current (in-place coordinate-corrected) matches become the
running result for the next division.  And whenever the inner loop run at
an outer width reports `done = true`, the outer loop returns its matches
immediately, terminating the whole pyramid search. -/
theorem findImage_early_stop_returns_previous
    (resample : Raster → Nat → Nat → Int → Nat) (img subsrc imgsrc : Raster)
    (imgWidth imgHeight : Nat) (imgScale : ℚ) (opts : Opts) (nw : Nat)
    (div : Nat) (lastTop : ℚ) (acc : List Match)
    (hdiv : 1 ≤ div) (hdivmax : div ≤ opts.subMaxDiv)
    (hactive : ¬ ((innerDims subsrc imgScale div).1 *
        (innerDims subsrc imgScale div).2 < (opts.subMinArea : Int) ∨
      (imgWidth : Int) ≤ (innerDims subsrc imgScale div).1 ∨
      (imgHeight : Int) ≤ (innerDims subsrc imgScale div).2))
    (divTop : Match) (rest : List Match)
    (hm : convolutionTopKParallel img
      (resizeImage resample subsrc (innerDims subsrc imgScale div).1.toNat
        (innerDims subsrc imgScale div).2.toNat) opts.k nw = divTop :: rest) :
    (divTop.score < lastTop →
      innerLoop resample img subsrc imgWidth imgHeight imgScale opts nw
        div lastTop acc = (acc, true)) ∧
    (¬ divTop.score < lastTop →
      innerLoop resample img subsrc imgWidth imgHeight imgScale opts nw
        div lastTop acc =
      innerLoop resample img subsrc imgWidth imgHeight imgScale opts nw
        (div * 2) divTop.score
        (Matches.Scale (divTop :: rest) (1 / imgScale))) ∧
    (∀ (W : Nat) (acc0 m : List Match), 1 ≤ W → W ≤ opts.imgMaxWidth →
      innerLoop resample (resizeImage resample imgsrc W 0) subsrc W
        (resizeImage resample imgsrc W 0).h ((W : ℚ) / (imgsrc.w : ℚ)) opts nw
        1 0 acc0 = (m, true) →
      outerLoop resample imgsrc subsrc opts nw W acc0 = m) := by
  obtain ⟨g, hg⟩ : ∃ g, opts.subMaxDiv + 1 - div = g + 1 :=
    ⟨opts.subMaxDiv - div, by omega⟩
  refine ⟨?_, ?_, ?_⟩
  · intro hlt
    rw [innerLoop, hg]
    simp only [innerLoopGo, if_neg (by omega : ¬ opts.subMaxDiv < div),
      if_neg hactive, hm, if_pos hlt]
  · intro hge
    rw [innerLoop, hg]
    simp only [innerLoopGo, if_neg (by omega : ¬ opts.subMaxDiv < div),
      if_neg hactive, hm, if_neg hge]
    rw [innerLoop]
    exact innerLoopGo_fuel_irrel resample img subsrc imgWidth imgHeight imgScale
      opts nw g (opts.subMaxDiv + 1 - div * 2) (div * 2) divTop.score _
      (by omega) (by omega) (by omega)
  · intro W acc0 m hW1 hW2 hinner
    rw [outerLoop, dif_neg (by omega : ¬(W = 0 ∨ opts.imgMaxWidth < W))]
    simp only [hinner, if_true]

/-- C3 witness: on a concrete instance (4x4 all-zero haystack, 2x2 all-zero
needle, `subMaxDiv = 4`, `k = 1`, two workers, divisor 1, previous best
score 2, accumulated matches `[]`) the matcher's best score is 1 < 2, and
the inner loop indeed returns the previous accumulated matches with
`done = true`. -/
theorem findImage_early_stop_returns_previous_witness :
    innerLoop (fun _ _ _ _ => 0) ⟨4, 4, fun _ => 0⟩ ⟨2, 2, fun _ => 0⟩ 4 4 1
      ⟨8, 256, 1, 4, 1⟩ 2 1 2 [] = ([], true) := by
  have hdims : innerDims ⟨2, 2, fun _ => 0⟩ (1 : ℚ) 1 = ((2 : Int), (2 : Int)) := by
    simp only [innerDims]
    norm_num [goInt]
  have hraw : convTopKRaw ⟨4, 4, fun _ => 0⟩
      (resizeImage (fun _ _ _ _ => 0) ⟨2, 2, fun _ => 0⟩ 2 2) 1 2 =
      [⟨⟨0, 0, 2, 2⟩, ((0 : Nat) : ℚ)⟩] := by decide
  have hm : convolutionTopKParallel (⟨4, 4, fun _ => 0⟩ : Raster)
      (resizeImage (fun _ _ _ _ => 0) ⟨2, 2, fun _ => 0⟩
        (innerDims ⟨2, 2, fun _ => 0⟩ (1 : ℚ) 1).1.toNat
        (innerDims ⟨2, 2, fun _ => 0⟩ (1 : ℚ) 1).2.toNat) 1 2 =
      [⟨⟨0, 0, 2, 2⟩, 1⟩] := by
    rw [hdims]
    show convolutionTopKParallel ⟨4, 4, fun _ => 0⟩
      (resizeImage (fun _ _ _ _ => 0) ⟨2, 2, fun _ => 0⟩ 2 2) 1 2 = _
    simp only [convolutionTopKParallel, hraw, List.map_cons, List.map_nil,
      normalizeMatch]
    norm_num
  exact (findImage_early_stop_returns_previous (fun _ _ _ _ => 0)
    ⟨4, 4, fun _ => 0⟩ ⟨2, 2, fun _ => 0⟩ ⟨4, 4, fun _ => 0⟩ 4 4 1
    ⟨8, 256, 1, 4, 1⟩ 2 1 2 [] (by norm_num) (by norm_num)
    (by rw [hdims]; norm_num) ⟨⟨0, 0, 2, 2⟩, 1⟩ [] hm).1 (by norm_num)
